import Mathlib

/-!
Shallow embedding of the parameter-management core of `reggie`
(`reggie/core/params.py`): the leaf `Parameter`, the composite container
`Parameters`, and the owning `Parameterized` object.  Scalars are modelled
as rationals; numpy arrays become flat lists of rationals; in-place
mutation becomes explicit state passing (operations return the resulting
state together with an optional error, mirroring the fact that a Python
exception raised partway through leaves the earlier in-place writes in
place); the mutation hook `_update` is modelled as an event on a trace.
-/

namespace Reggie

/-- Modelled from the spec: a transform (external collaborator, spec section 6;
the repository's `domains.py` is not under `src/`) exposes `to_transformed`,
`to_natural` and `gradfactor`, all acting component-wise. -/
structure Transform where
  get_transform : ℚ → ℚ
  get_inverse : ℚ → ℚ
  get_gradfactor : ℚ → ℚ

/-- Modelled from the spec: the domain registry (external collaborator, spec
section 6; the repository's `domains.py` is not under `src/`) maps a domain
identifier to a box constraint `BOUNDS[domain]` (a single lo/hi pair,
broadcast over all components) and a transform `TRANSFORMS[domain]`.  A
`Domain` value stands for one such identifier together with its registry
entries. -/
structure Domain where
  bounds : ℚ × ℚ
  transform : Transform

/-- Modelled from the spec: a prior (external collaborator, spec section 6;
the repository's `priors.py` is not under `src/`) exposes a support box
`prior.bounds` — a list of lo/hi rows, either a single broadcast row or one
row per component.  The log-density interface is not needed by any claim. -/
structure Prior where
  bounds : List (ℚ × ℚ)

/-- Failure taxonomy of the core (spec section 7); each constructor names the
error class raised by the corresponding `ValueError`/`RuntimeError` in
`params.py`. -/
inductive Err where
  | domainViolation
  | domainMismatch
  | duplicateName
  | unknownKey
  | ambiguousTarget
  | shapeMismatch
  | typeMismatch
deriving DecidableEq, Repr

/-- Row of a bounds array seen by component `i`: numpy broadcasting of
`np.array(bounds, ndmin=2)` — a single row applies to every component,
otherwise row `i` applies to component `i`. -/
def boundsAt (bounds : List (ℚ × ℚ)) (i : Nat) : ℚ × ℚ :=
  if bounds.length = 1 then bounds.getD 0 (0, 0) else bounds.getD i (0, 0)

/-- Embedding of `_outbounds(bounds, theta)`:
`np.any(theta < bounds[:, 0]) or np.any(theta > bounds[:, 1])`. -/
def Outbounds (bounds : List (ℚ × ℚ)) (theta : List ℚ) : Prop :=
  ∃ i ∈ List.range theta.length,
    theta.getD i 0 < (boundsAt bounds i).1 ∨ (boundsAt bounds i).2 < theta.getD i 0

instance (bounds : List (ℚ × ℚ)) (theta : List ℚ) :
    Decidable (Outbounds bounds theta) := by
  unfold Outbounds; exact inferInstance

/-- Embedding of `np.clip(v, bounds[:, 0], bounds[:, 1])`, component-wise
`min(max(v_i, lo_i), hi_i)` with numpy broadcasting of the bounds rows. -/
def clipList (v : List ℚ) (bounds : List (ℚ × ℚ)) : List ℚ :=
  (List.range v.length).map
    (fun i => min (max (v.getD i 0) (boundsAt bounds i).1) (boundsAt bounds i).2)

/-- Embedding of the `Parameter` leaf: a flat value array, its domain, an
optional prior, a block tag and the derived effective bounds. -/
structure Parameter where
  value : List ℚ
  domain : Domain
  prior : Option Prior
  block : ℤ
  bounds : List (ℚ × ℚ)

/-- Embedding of `Parameter.size` (`self.value.size`). -/
def Parameter.size (p : Parameter) : Nat :=
  p.value.length

/-- Embedding of `Parameter.get_value`. -/
def Parameter.get_value (p : Parameter) (transform : Bool) : List ℚ :=
  if transform then p.value.map p.domain.transform.get_transform else p.value

/-- Embedding of `Parameter.set_value`: inverse-transform if requested, check
the effective bounds, and only then overwrite the value in place.  The pair
returned is (raised error, state of the object after the call): on failure the
object is unchanged because the write follows the check. -/
def Parameter.set_value (p : Parameter) (theta : List ℚ) (transform : Bool) :
    Option Err × Parameter :=
  let theta := if transform then theta.map p.domain.transform.get_inverse else theta
  if Outbounds p.bounds theta then (some Err.domainViolation, p)
  else (none, { p with value := theta })

/-- Embedding of `Parameter.__init__`: store the fields, set `bounds` to the
domain box, and route the initial value through `set_value` (which raises on a
domain violation — it never clips, despite the constructor's comment). -/
def Parameter.init (value : List ℚ) (domain : Domain) (prior : Option Prior)
    (block : ℤ) : Except Err Parameter :=
  let p : Parameter := ⟨value, domain, prior, block, [domain.bounds]⟩
  match p.set_value value false with
  | (some e, _) => .error e
  | (none, p') => .ok p'

/-- The domain box as a bounds array matched against `k` prior support rows:
`np.tile(dbounds, (len(pbounds), 1))` when the support has more than one row,
the single broadcast row otherwise. -/
def tiledDomain (d : Domain) (k : Nat) : List (ℚ × ℚ) :=
  if k > 1 then List.replicate k d.bounds else [d.bounds]

/-- Embedding of `Parameter.set_prior`.  `none` clears the prior and restores
the plain domain box.  Otherwise the prior support rows are checked against
the (tiled) domain box — both the row of lower endpoints and the row of upper
endpoints must lie inside it, or a domain-mismatch error is raised — then
`bounds` becomes the row-wise intersection and the value is clipped into it,
with a non-fatal warning (the returned `Bool`) when the old value fell
outside.  The triple is (raised error, state after the call, warning flag). -/
def Parameter.set_prior (p : Parameter) (prior : Option Prior) :
    Option Err × Parameter × Bool :=
  match prior with
  | none => (none, { p with prior := none, bounds := [p.domain.bounds] }, false)
  | some pr =>
      let pb := pr.bounds
      let db := tiledDomain p.domain pb.length
      if Outbounds db (pb.map Prod.fst) ∨ Outbounds db (pb.map Prod.snd) then
        (some Err.domainMismatch, p, false)
      else
        let newBounds := pb.map
          (fun b => (max b.1 p.domain.bounds.1, min b.2 p.domain.bounds.2))
        let warn := decide (Outbounds newBounds p.value)
        (none,
         { p with prior := some pr, bounds := newBounds,
                  value := clipList p.value newBounds },
         warn)

/-- Observable effects of a container operation: a write to a named leaf, or
an invocation of the owner's mutation hook `_update`. -/
inductive Event where
  | setLeaf : String → List ℚ → Event
  | hook : Event
deriving DecidableEq, Repr

/-- Embedding of the `Parameters` container: an ordered name-keyed list of
leaves (the `OrderedDict`). -/
structure Parameters where
  params : List (String × Parameter)

/-- Embedding of `Parameters.size`: sum of the leaf sizes. -/
def Parameters.size (c : Parameters) : Nat :=
  (c.params.map (fun e => e.2.size)).sum

/-- Consecutive slices of `theta` cut to the leaf sizes, in registration
order — the reading of `theta[a:b]` in `Parameters.set_value`. -/
def slices : List (String × Parameter) → List ℚ → List (List ℚ)
  | [], _ => []
  | (_, p) :: rest, theta => theta.take p.size :: slices rest (theta.drop p.size)

/-- Total size of a list of leaves (the running offset `a`). -/
def sizeSum (ps : List (String × Parameter)) : Nat :=
  (ps.map (fun e => e.2.size)).sum

/-- The loop body of `Parameters.set_value`: feed each leaf its slice in
order; stop at the first leaf whose `set_value` raises, leaving that leaf and
all later leaves untouched (the earlier leaves keep their new values, as the
in-place Python writes do).  Returns (error, leaves after the call, trace of
leaf writes). -/
def setLeavesGo : List (String × Parameter) → List ℚ → Bool →
    Option Err × List (String × Parameter) × List Event
  | [], _, _ => (none, [], [])
  | (k, p) :: rest, theta, t =>
      match p.set_value (theta.take p.size) t with
      | (some e, _) => (some e, (k, p) :: rest, [])
      | (none, p') =>
          let r := setLeavesGo rest (theta.drop p.size) t
          (r.1, (k, p') :: r.2.1, Event.setLeaf k (theta.take p.size) :: r.2.2)

/-- Embedding of `Parameters.set_value`: raise a shape-mismatch error unless
`theta` has exactly `size` elements (before touching any leaf), otherwise
slice `theta` across the leaves in registration order and, if every leaf
succeeded, invoke the owner's mutation hook once. -/
def Parameters.set_value (c : Parameters) (theta : List ℚ) (transform : Bool) :
    Option Err × Parameters × List Event :=
  if theta.length = c.size then
    match setLeavesGo c.params theta transform with
    | (some e, ps', evs) => (some e, ⟨ps'⟩, evs)
    | (none, ps', evs) => (none, ⟨ps'⟩, evs ++ [Event.hook])
  else (some Err.shapeMismatch, c, [])

/-- Embedding of `Parameters.set_prior`: raise an ambiguous-target error when
the container holds more than one leaf; otherwise delegate to the single leaf
if there is one (an empty container skips the delegation) and invoke the
owner's mutation hook. -/
def Parameters.set_prior (c : Parameters) (prior : Option Prior) :
    Option Err × Parameters × List Event :=
  if c.params.length > 1 then (some Err.ambiguousTarget, c, [])
  else
    match c.params with
    | [] => (none, c, [Event.hook])
    | (k, p) :: rest =>
        match p.set_prior prior with
        | (some e, _, _) => (some e, c, [])
        | (none, p', _) => (none, ⟨(k, p') :: rest⟩, [Event.hook])

/-- Embedding of the leaf branch of `Parameters._register`: raise a
duplicate-name error when the name is already registered, otherwise insert
the leaf at the end of the ordered dictionary. -/
def Parameters.registerParam (c : Parameters) (name : String) (p : Parameter) :
    Option Err × Parameters :=
  if c.params.any (fun e => e.1 = name) then (some Err.duplicateName, c)
  else (none, ⟨c.params ++ [(name, p)]⟩)

/-- The flattened-name prefixing of the nested branch of
`Parameters._register`: `name + "." + n` under a registration name, `n`
itself when the name is `None` (root flattening). -/
def prefixName : Option String → String → String
  | some nm, n => nm ++ "." ++ n
  | none, n => n

/-- The loop of the nested branch of `Parameters._register`: re-insert each
entry of the child container in order, under its prefixed name, through the
leaf branch.  The first duplicate name aborts the loop — the entries already
inserted stay in the dictionary, as the in-place Python insertions do.  The
pair is (raised error, state of the container after the call). -/
def registerList (c : Parameters) (name : Option String) :
    List (String × Parameter) → Option Err × Parameters
  | [] => (none, c)
  | (n, p) :: rest =>
      match c.registerParam (prefixName name n) p with
      | (some e, c') => (some e, c')
      | (none, c') => registerList c' name rest

/-- Embedding of `Parameters._register` applied to a nested `Parameters`
container: flatten its entries into this container one at a time. -/
def Parameters.registerContainer (c : Parameters) (name : Option String)
    (child : Parameters) : Option Err × Parameters :=
  registerList c name child.params

/-- The loop of `Parameters.__getitem__`: collect the requested leaves into a
fresh ordered dictionary, raising a duplicate-key error when a key repeats in
the request and an unknown-key error when a key is not registered.  Only the
fresh dictionary is written, never the source container. -/
def getitemGo (src : List (String × Parameter))
    (acc : List (String × Parameter)) :
    List String → Option Err × List (String × Parameter)
  | [] => (none, acc)
  | k :: ks =>
      if acc.any (fun e => e.1 = k) then (some Err.duplicateName, acc)
      else
        match src.find? (fun e => e.1 = k) with
        | none => (some Err.unknownKey, acc)
        | some e => getitemGo src (acc ++ [e]) ks

/-- Embedding of `Parameters.__getitem__` (the `select` operation): the
triple is (raised error, state of the source container after the call — the
code never writes to it, it only reads — and the entries of the selected
view, which alias the same leaves).  -/
def Parameters.getitem (c : Parameters) (keys : List String) :
    Option Err × Parameters × List (String × Parameter) :=
  ((getitemGo c.params [] keys).1, c, (getitemGo c.params [] keys).2)

/-- One step of the `blocks` property: `blocks.setdefault(b, []).extend(idxs)`
on an insertion-ordered dictionary represented as an association list. -/
def insertBlock : List (ℤ × List Nat) → ℤ → List Nat → List (ℤ × List Nat)
  | [], b, idxs => [(b, idxs)]
  | (b', l) :: t, b, idxs =>
      if b' = b then (b', l ++ idxs) :: t else (b', l) :: insertBlock t b idxs

/-- The loop of the `blocks` property: walk the leaves in registration order,
extending the group of each leaf's block tag with its index range. -/
def blocksGo : List (String × Parameter) → Nat → List (ℤ × List Nat) →
    List (ℤ × List Nat)
  | [], _, acc => acc
  | (_, p) :: rest, a, acc =>
      blocksGo rest (a + p.size) (insertBlock acc p.block (List.range' a p.size))

/-- Embedding of `Parameters.blocks`: the grouped index lists, in first-seen
tag order (`dict.values()` of an insertion-ordered dictionary). -/
def Parameters.blocks (c : Parameters) : List (List Nat) :=
  (blocksGo c.params 0 []).map Prod.snd

/-!
Heap model for the deep-copy claim.  Parameter value arrays are cells of an
explicit store, owners are identified by ids, so that array sharing between
an original object and its copy — the subject of `__deepcopy__` — becomes
statable.  Everything else mirrors the functional model above.
-/

/-- The heap of numpy value arrays: cell `r` holds the array a `ParamH`
points to through its `ref`. -/
abbrev Store := List (List ℚ)

/-- A `Parameter` whose value array lives in the store (the leaf as seen by
the deep-copy machinery). -/
structure ParamH where
  ref : Nat
  domain : Domain
  prior : Option Prior
  block : ℤ
  bounds : List (ℚ × ℚ)

/-- A `Parameters` container with its back-reference `__obj` to the id of the
owning `Parameterized` object. -/
structure ParamsH where
  obj : Nat
  params : List (String × ParamH)

/-- A `Parameterized` owner: its identity and its container. -/
structure ParameterizedH where
  id : Nat
  params : ParamsH

/-- Embedding of `Parameter.__deepcopy__` applied to each leaf in turn (the
loop in `Parameters.__deepcopy__`): every leaf's value array is copied into a
fresh store cell (`memo[id(self.value)] = self.value.copy()`) and the leaf is
rebuilt pointing at the fresh cell; all other fields are copied as values. -/
def copyLeavesH : Store → List (String × ParamH) → Store × List (String × ParamH)
  | s, [] => (s, [])
  | s, (k, p) :: rest =>
      let r := s.length
      let s' := s ++ [s.getD p.ref []]
      let res := copyLeavesH s' rest
      (res.1, (k, { p with ref := r }) :: res.2)

/-- Embedding of `Parameters.__deepcopy__`: copy every leaf first, and rebind
the back-reference via the memo dictionary — the owner being copied was
registered in the memo before its container, so the copy's `__obj` is the new
owner `nid`, not the original. -/
def ParamsH.deepcopy (s : Store) (c : ParamsH) (nid : Nat) : Store × ParamsH :=
  let res := copyLeavesH s c.params
  (res.1, ⟨nid, res.2⟩)

/-- Embedding of `Parameterized.__deepcopy__`: allocate the new owner, put it
in the memo, then copy the container (which therefore back-references the new
owner). -/
def ParameterizedH.deepcopy (s : Store) (o : ParameterizedH) (nid : Nat) :
    Store × ParameterizedH :=
  let res := ParamsH.deepcopy s o.params nid
  (res.1, ⟨nid, res.2⟩)

/-- Heap version of `Parameter.set_value` (natural or transformed space):
check the bounds, then write the leaf's store cell. -/
def ParamH.set_value (s : Store) (p : ParamH) (theta : List ℚ) (transform : Bool) :
    Option Err × Store :=
  let theta := if transform then theta.map p.domain.transform.get_inverse else theta
  if Outbounds p.bounds theta then (some Err.domainViolation, s)
  else (none, s.set p.ref theta)

/-- Heap version of the slicing loop of `Parameters.set_value`. -/
def setLeavesH : Store → List (String × ParamH) → List ℚ → Bool → Option Err × Store
  | s, [], _, _ => (none, s)
  | s, (_, p) :: rest, theta, t =>
      let n := (s.getD p.ref []).length
      match ParamH.set_value s p (theta.take n) t with
      | (some e, s') => (some e, s')
      | (none, s') => setLeavesH s' rest (theta.drop n) t

/-- Heap version of `Parameters.size`. -/
def ParamsH.size (s : Store) (c : ParamsH) : Nat :=
  (c.params.map (fun e => (s.getD e.2.ref []).length)).sum

/-- Heap version of `Parameters.set_value`; the final component records the
owner ids on which the mutation hook `_update` was invoked. -/
def ParamsH.set_value (s : Store) (c : ParamsH) (theta : List ℚ) (transform : Bool) :
    Option Err × Store × List Nat :=
  if theta.length = ParamsH.size s c then
    match setLeavesH s c.params theta transform with
    | (some e, s') => (some e, s', [])
    | (none, s') => (none, s', [c.obj])
  else (some Err.shapeMismatch, s, [])

/-!
Predicates written from the spec's words, for comparison with the embedded
code (refinement-style claims about error conditions and the `blocks`
grouping).
-/

/-- Stated from the spec: the prior's support box overlaps the parameter's
domain box — every component interval of the support meets the domain
interval (the spec's *domain mismatch* is the negation: "a prior's support
does not overlap a parameter's domain at all"). -/
def supportOverlapsDomain (d : Domain) (pb : List (ℚ × ℚ)) : Prop :=
  ∀ b ∈ pb, max b.1 d.bounds.1 ≤ min b.2 d.bounds.2

instance (d : Domain) (pb : List (ℚ × ℚ)) :
    Decidable (supportOverlapsDomain d pb) := by
  unfold supportOverlapsDomain; exact inferInstance

/-- Stated from the spec: the component-wise intersection
`[max(domain.lo, prior.lo), min(domain.hi, prior.hi)]` of the domain box and
the prior support rows. -/
def intersection (d : Domain) (pb : List (ℚ × ℚ)) : List (ℚ × ℚ) :=
  pb.map (fun b => (max d.bounds.1 b.1, min d.bounds.2 b.2))

/-- Stated from the spec: block tags in first-seen order. -/
def firstSeen : List ℤ → List ℤ
  | [] => []
  | b :: t => b :: (firstSeen t).filter (fun x => x ≠ b)

/-- Stated from the spec: the flattened vector indices contributed to tag `b`
by leaves starting at offset `a` — each leaf with tag `b` contributes the
consecutive index range at its flattening-order offset. -/
def tagIdxs : List (String × Parameter) → Nat → ℤ → List Nat
  | [], _, _ => []
  | (_, p) :: rest, a, b =>
      (if p.block = b then List.range' a p.size else []) ++ tagIdxs rest (a + p.size) b

/-- Lookup in an association list of block groups (first occurrence of the
key, as in a Python dictionary). -/
def lookupB : List (ℤ × List Nat) → ℤ → Option (List Nat)
  | [], _ => none
  | (b', l) :: t, b => if b' = b then some l else lookupB t b

/-!
Concrete instances used by witnesses and counterexamples.
-/

/-- A concrete transform: the identity reparameterization. -/
def idT : Transform :=
  ⟨fun x => x, fun x => x, fun _ => 1⟩

/-- A concrete domain with box `[0, 1]`. -/
def dom01 : Domain :=
  ⟨(0, 1), idT⟩

/-- A concrete domain with box `[0, 10]`. -/
def dom010 : Domain :=
  ⟨(0, 10), idT⟩

/-- A leaf parameter with no prior, bounds equal to the domain box. -/
def leaf (v : List ℚ) (d : Domain) (blk : ℤ) : Parameter :=
  ⟨v, d, none, blk, [d.bounds]⟩

/-- A two-leaf container over the unit-box domain, both leaves at `0`. -/
def cTwo : Parameters :=
  ⟨[("a", leaf [0] dom01 0), ("b", leaf [0] dom01 0)]⟩

/-- The empty container. -/
def cEmpty : Parameters :=
  ⟨[]⟩

/-- A single-leaf container over the `[0, 10]` domain. -/
def cOne : Parameters :=
  ⟨[("x", leaf [5] dom010 0)]⟩

/-- The spec's `blocks` example: leaves of sizes `[2, 1, 3]` with block tags
`[0, 1, 0]`. -/
def cBlocks : Parameters :=
  ⟨[("a", leaf [0, 0] dom01 0), ("b", leaf [0] dom01 1),
    ("c", leaf [0, 0, 0] dom01 0)]⟩

/-- A concrete leaf at `5` in the `[0, 10]` box. -/
def pFive : Parameter :=
  leaf [5] dom010 0

/-- A prior whose support `[-1, 5]` overlaps the `[0, 10]` domain but is not
contained in it. -/
def prOverlap : Prior :=
  ⟨[((-1 : ℚ), 5)]⟩

/-- A prior whose support `[0, 8]` is contained in the `[0, 10]` domain. -/
def prInside : Prior :=
  ⟨[((0 : ℚ), 8)]⟩

/-- A prior whose support `[6, 8]` excludes the value `5`. -/
def prClip : Prior :=
  ⟨[((6 : ℚ), 8)]⟩

/-- A concrete heap: two one-element value arrays. -/
def s7 : Store :=
  [[1], [2]]

/-- A concrete heap owner with id `0` owning both arrays of `s7`. -/
def o7 : ParameterizedH :=
  ⟨0, ⟨0, [("a", ⟨0, dom010, none, 0, [dom010.bounds]⟩),
           ("b", ⟨1, dom010, none, 0, [dom010.bounds]⟩)]⟩⟩

/-- The data invariant of a leaf parameter: the value lies inside the
effective bounds component-wise, the effective bounds lie inside the domain
box row-wise, and the bounds array is shaped as numpy keeps it (one broadcast
row or one row per component). -/
def Parameter.Inv (p : Parameter) : Prop :=
  ¬ Outbounds p.bounds p.value ∧
  (∀ b ∈ p.bounds, p.domain.bounds.1 ≤ b.1 ∧ b.2 ≤ p.domain.bounds.2) ∧
  (p.bounds.length = 1 ∨ p.bounds.length = p.value.length)

instance (p : Parameter) : Decidable p.Inv := by
  unfold Parameter.Inv; exact inferInstance

/-- Shape discipline numpy imposes on a prior passed to `set_prior`: support
rows are ordered intervals, and there is either a single broadcast row or one
row per component of the parameter. -/
def PriorOk (p : Parameter) : Option Prior → Prop
  | none => True
  | some pr =>
      (∀ b ∈ pr.bounds, b.1 ≤ b.2) ∧
      (pr.bounds.length = 1 ∨ pr.bounds.length = p.value.length)

instance (p : Parameter) : (pr : Option Prior) → Decidable (PriorOk p pr)
  | none => .isTrue trivial
  | some pr => by unfold PriorOk; exact inferInstance

/-- The leaf produced by a successful `set_prior` at `pFive` with `prClip`:
bounds narrowed to `[6, 8]`, value clipped to `6`. -/
def pClipped : Parameter :=
  ⟨[6], dom010, some prClip, 0, [((6 : ℚ), 8)]⟩

/-- The leaf produced by a successful `set_prior` at `pFive` with `prInside`:
bounds narrowed to `[0, 8]`, value unchanged. -/
def pWithPrior : Parameter :=
  ⟨[5], dom010, some prInside, 0, [((0 : ℚ), 8)]⟩

/-- How an old leaf paired with its slice of `theta` relates to the leaf
after a successful container `set_value`: same name, and the new leaf is the
result of the old leaf's `set_value` on exactly that slice. -/
def leafSet (t : Bool) (old : (String × Parameter) × List ℚ)
    (new : String × Parameter) : Prop :=
  new.1 = old.1.1 ∧ old.1.2.set_value old.2 t = (none, new.2)

/-- The container `cTwo` after a successful `set_value` with `[1, 1]`. -/
def cTwoOnes : Parameters :=
  ⟨[("a", leaf [1] dom01 0), ("b", leaf [1] dom01 0)]⟩

/-- A container already holding the flattened name `"s.a"`. -/
def cDotted : Parameters :=
  ⟨[("s.a", leaf [0] dom01 0)]⟩

/-- A child container whose entries flatten to `"s.x"` and `"s.a"` when
registered under the name `"s"` — the second collides with `cDotted`'s
existing entry only after the first has been inserted. -/
def cChild : Parameters :=
  ⟨[("x", leaf [0] dom01 0), ("a", leaf [0] dom01 0)]⟩

/-!
General lemmas about the embedded operations.
-/

theorem not_outbounds_iff (bounds : List (ℚ × ℚ)) (theta : List ℚ) :
    ¬ Outbounds bounds theta ↔
      ∀ i < theta.length,
        (boundsAt bounds i).1 ≤ theta.getD i 0 ∧ theta.getD i 0 ≤ (boundsAt bounds i).2 := by
  unfold Outbounds
  push_neg
  constructor
  · intro h i hi
    exact h i (List.mem_range.mpr hi)
  · intro h i hi
    exact h i (List.mem_range.mp hi)

theorem boundsAt_tiledDomain (d : Domain) (k i : Nat) (h : i < k ∨ k ≤ 1) :
    boundsAt (tiledDomain d k) i = d.bounds := by
  unfold tiledDomain boundsAt
  by_cases hk : k > 1
  · have hik : i < k := by omega
    rw [if_pos hk, if_neg (by simp only [List.length_replicate]; omega),
        List.getD_eq_getElem _ _ (by simpa using hik)]
    simp
  · simp [if_neg hk]

theorem boundsAt_map (f : ℚ × ℚ → ℚ × ℚ) (pb : List (ℚ × ℚ)) (i : Nat)
    (h : i < pb.length ∨ pb.length = 1) :
    boundsAt (pb.map f) i = f (boundsAt pb i) := by
  unfold boundsAt
  by_cases h1 : pb.length = 1
  · have h0 : 0 < pb.length := by omega
    simp only [List.length_map, h1, if_pos rfl]
    rw [List.getD_eq_getElem _ _ (by simpa using h0),
        List.getD_eq_getElem _ _ h0]
    simp
  · have hi : i < pb.length := by tauto
    simp only [List.length_map, if_neg h1]
    rw [List.getD_eq_getElem _ _ (by simpa using hi),
        List.getD_eq_getElem _ _ hi]
    simp

theorem getD_map_range {α : Type} (f : Nat → α) (n i : Nat) (d : α) (h : i < n) :
    ((List.range n).map f).getD i d = f i := by
  rw [List.getD_eq_getElem _ _ (by simpa using h)]
  simp

theorem clipList_length (v : List ℚ) (bounds : List (ℚ × ℚ)) :
    (clipList v bounds).length = v.length := by
  simp [clipList]

theorem clipList_getD (v : List ℚ) (bounds : List (ℚ × ℚ)) (i : Nat)
    (h : i < v.length) :
    (clipList v bounds).getD i 0 =
      min (max (v.getD i 0) (boundsAt bounds i).1) (boundsAt bounds i).2 := by
  unfold clipList
  rw [getD_map_range _ _ _ _ h]

theorem map_getD_range {α : Type} (l : List α) (d : α) :
    (List.range l.length).map (fun i => l.getD i d) = l := by
  apply List.ext_getElem
  · simp
  · intro i h1 h2
    simp [List.getElem?_eq_getElem h2]

theorem boundsAt_singleton (b : ℚ × ℚ) (i : Nat) : boundsAt [b] i = b := by
  unfold boundsAt
  simp

theorem boundsAt_mem (bounds : List (ℚ × ℚ)) (i : Nat)
    (h : bounds.length = 1 ∨ i < bounds.length) :
    boundsAt bounds i ∈ bounds := by
  unfold boundsAt
  by_cases h1 : bounds.length = 1
  · have h0 : 0 < bounds.length := by omega
    rw [if_pos h1, List.getD_eq_getElem _ _ h0]
    exact List.getElem_mem h0
  · have hi : i < bounds.length := by tauto
    rw [if_neg h1, List.getD_eq_getElem _ _ hi]
    exact List.getElem_mem hi

theorem getD_map_fst (pb : List (ℚ × ℚ)) (j : Nat) (h : j < pb.length) :
    (pb.map Prod.fst).getD j 0 = (pb.get ⟨j, h⟩).1 := by
  rw [List.getD_eq_getElem _ _ (by simpa using h)]
  simp

theorem getD_map_snd (pb : List (ℚ × ℚ)) (j : Nat) (h : j < pb.length) :
    (pb.map Prod.snd).getD j 0 = (pb.get ⟨j, h⟩).2 := by
  rw [List.getD_eq_getElem _ _ (by simpa using h)]
  simp

/-- When the domain-mismatch check of `set_prior` passes, every support row
lies inside the domain box at both endpoints. -/
theorem prior_rows_in_domain (d : Domain) (pb : List (ℚ × ℚ))
    (h1 : ¬ Outbounds (tiledDomain d pb.length) (pb.map Prod.fst))
    (h2 : ¬ Outbounds (tiledDomain d pb.length) (pb.map Prod.snd)) :
    ∀ b ∈ pb, (d.bounds.1 ≤ b.1 ∧ b.1 ≤ d.bounds.2) ∧
              (d.bounds.1 ≤ b.2 ∧ b.2 ≤ d.bounds.2) := by
  rw [not_outbounds_iff] at h1 h2
  intro b hb
  obtain ⟨j, hj, hjb⟩ := List.mem_iff_getElem.mp hb
  have hj1 := h1 j (by simpa using hj)
  have hj2 := h2 j (by simpa using hj)
  rw [boundsAt_tiledDomain d pb.length j (Or.inl hj), getD_map_fst pb j hj] at hj1
  rw [boundsAt_tiledDomain d pb.length j (Or.inl hj), getD_map_snd pb j hj] at hj2
  simp only [List.get_eq_getElem, hjb] at hj1 hj2
  exact ⟨hj1, hj2⟩

theorem slices_length (ps : List (String × Parameter)) (theta : List ℚ) :
    (slices ps theta).length = ps.length := by
  induction ps generalizing theta with
  | nil => simp [slices]
  | cons hd rest ih =>
      obtain ⟨k, p⟩ := hd
      simp [slices, ih]

/-- A run of the leaf loop of container `set_value` that raises no error
relates every leaf to its slice through the leaf's own `set_value`, in
registration order, and writes the leaves in exactly that order. -/
theorem setLeavesGo_ok (ps : List (String × Parameter)) (theta : List ℚ)
    (t : Bool) (ps' : List (String × Parameter)) (evs : List Event)
    (h : setLeavesGo ps theta t = (none, ps', evs)) :
    List.Forall₂ (leafSet t) (ps.zip (slices ps theta)) ps' ∧
    evs = (ps.zip (slices ps theta)).map (fun e => Event.setLeaf e.1.1 e.2) := by
  induction ps generalizing theta ps' evs with
  | nil =>
      simp only [setLeavesGo, Prod.mk.injEq] at h
      obtain ⟨h1, h2⟩ := h.2
      subst h1; subst h2
      simp [slices]
  | cons hd rest ih =>
      obtain ⟨k, p⟩ := hd
      simp only [setLeavesGo] at h
      rcases hsv : p.set_value (theta.take p.size) t with ⟨e1, p1⟩
      rw [hsv] at h
      match e1 with
      | some e => simp at h
      | none =>
          rcases hgo : setLeavesGo rest (theta.drop p.size) t with ⟨e2, ps2, evs2⟩
          rw [hgo] at h
          simp only [Prod.mk.injEq] at h
          obtain ⟨he2, hps, hevs⟩ := h
          subst he2
          obtain ⟨ihf, ihe⟩ := ih (theta.drop p.size) ps2 evs2 hgo
          subst hps; subst hevs
          simp only [slices, List.zip_cons_cons, List.map_cons]
          exact ⟨List.Forall₂.cons ⟨rfl, hsv⟩ ihf, by rw [ihe]⟩

/-- A run of the leaf loop of container `set_value` that raises splits the
leaf list at the failing leaf: the leaves before it have already been written
(in registration order), the failing leaf and every later leaf are unchanged,
and only the earlier writes are on the trace. -/
theorem setLeavesGo_fail (ps : List (String × Parameter)) (theta : List ℚ)
    (t : Bool) (e : Err) (ps' : List (String × Parameter)) (evs : List Event)
    (h : setLeavesGo ps theta t = (some e, ps', evs)) :
    ∃ pre x post pre',
      ps = pre ++ x :: post ∧
      ps' = pre' ++ x :: post ∧
      List.Forall₂ (leafSet t) (pre.zip (slices pre theta)) pre' ∧
      (x.2.set_value ((theta.drop (sizeSum pre)).take x.2.size) t).1 = some e ∧
      evs = (pre.zip (slices pre theta)).map (fun ev => Event.setLeaf ev.1.1 ev.2) := by
  induction ps generalizing theta ps' evs with
  | nil => simp [setLeavesGo] at h
  | cons hd rest ih =>
      obtain ⟨k, p⟩ := hd
      simp only [setLeavesGo] at h
      rcases hsv : p.set_value (theta.take p.size) t with ⟨e1, p1⟩
      rw [hsv] at h
      match e1 with
      | some e0 =>
          simp only [Prod.mk.injEq, Option.some.injEq] at h
          obtain ⟨he, hps, hevs⟩ := h
          subst he; subst hps; subst hevs
          refine ⟨[], (k, p), rest, [], by simp, by simp, List.Forall₂.nil, ?_, by simp⟩
          simp only [sizeSum, List.map_nil, List.sum_nil, List.drop_zero]
          rw [hsv]
      | none =>
          rcases hgo : setLeavesGo rest (theta.drop p.size) t with ⟨e2, ps2, evs2⟩
          rw [hgo] at h
          simp only [Prod.mk.injEq] at h
          obtain ⟨he2, hps, hevs⟩ := h
          subst he2
          obtain ⟨pre, x, post, pre', hrest, hps2, hf, hfail, hevs2⟩ :=
            ih (theta.drop p.size) ps2 evs2 hgo
          refine ⟨(k, p) :: pre, x, post, (k, p1) :: pre', ?_, ?_, ?_, ?_, ?_⟩
          · rw [hrest]; rfl
          · rw [← hps, hps2]; rfl
          · simp only [slices, List.zip_cons_cons]
            exact List.Forall₂.cons ⟨rfl, hsv⟩ hf
          · have hsz : sizeSum ((k, p) :: pre) = p.size + sizeSum pre := by
              simp [sizeSum]
            rw [hsz, ← List.drop_drop]
            exact hfail
          · rw [← hevs, hevs2]
            simp [slices]

theorem keys_insertBlock (acc : List (ℤ × List Nat)) (b : ℤ) (r : List Nat) :
    (insertBlock acc b r).map Prod.fst =
      if b ∈ acc.map Prod.fst then acc.map Prod.fst
      else acc.map Prod.fst ++ [b] := by
  induction acc with
  | nil => simp [insertBlock]
  | cons hd t ih =>
      obtain ⟨b', l⟩ := hd
      by_cases hb : b' = b
      · subst hb
        simp [insertBlock]
      · rw [insertBlock, if_neg hb]
        by_cases hm : b ∈ t.map Prod.fst
        · simp only [List.map_cons, ih, if_pos hm]
          rw [if_pos (by simp [hm])]
        · simp only [List.map_cons, ih, if_neg hm]
          rw [if_neg (by simp [hm, Ne.symm hb])]
          simp

theorem lookupB_insertBlock_self (acc : List (ℤ × List Nat)) (b : ℤ)
    (r : List Nat) :
    lookupB (insertBlock acc b r) b = some ((lookupB acc b).getD [] ++ r) := by
  induction acc with
  | nil => simp [insertBlock, lookupB]
  | cons hd t ih =>
      obtain ⟨b', l⟩ := hd
      by_cases hb : b' = b
      · subst hb
        simp [insertBlock, lookupB]
      · rw [insertBlock, if_neg hb, lookupB, if_neg hb, lookupB, if_neg hb, ih]

theorem lookupB_insertBlock_ne (acc : List (ℤ × List Nat)) (b bq : ℤ)
    (r : List Nat) (hne : bq ≠ b) :
    lookupB (insertBlock acc b r) bq = lookupB acc bq := by
  have hne' : ¬ b = bq := Ne.symm hne
  induction acc with
  | nil => simp [insertBlock, lookupB, hne']
  | cons hd t ih =>
      obtain ⟨b', l⟩ := hd
      by_cases hb : b' = b
      · subst hb
        rw [insertBlock, if_pos rfl, lookupB, lookupB, if_neg hne', if_neg hne']
      · rw [insertBlock, if_neg hb, lookupB, lookupB]
        by_cases hq : b' = bq
        · rw [if_pos hq, if_pos hq]
        · rw [if_neg hq, if_neg hq, ih]

theorem lookupB_eq_none_iff (acc : List (ℤ × List Nat)) (b : ℤ) :
    lookupB acc b = none ↔ b ∉ acc.map Prod.fst := by
  induction acc with
  | nil => simp [lookupB]
  | cons hd t ih =>
      obtain ⟨b', l⟩ := hd
      by_cases hb : b' = b
      · subst hb
        simp [lookupB]
      · rw [lookupB, if_neg hb]
        simp only [List.map_cons, List.mem_cons, ih]
        constructor
        · rintro hn (h1 | h2)
          · exact hb h1.symm
          · exact hn h2
        · intro hn
          exact fun h2 => hn (Or.inr h2)

theorem keys_blocksGo (ps : List (String × Parameter)) (a : Nat)
    (acc : List (ℤ × List Nat)) :
    (blocksGo ps a acc).map Prod.fst =
      acc.map Prod.fst ++
        (firstSeen (ps.map (fun e => e.2.block))).filter
          (fun b => decide (b ∉ acc.map Prod.fst)) := by
  induction ps generalizing a acc with
  | nil => simp [blocksGo, firstSeen]
  | cons hd rest ih =>
      obtain ⟨k, p⟩ := hd
      rw [blocksGo, ih]
      rw [keys_insertBlock]
      by_cases hm : p.block ∈ acc.map Prod.fst
      · rw [if_pos hm]
        congr 1
        simp only [List.map_cons, firstSeen, List.filter_cons]
        rw [if_neg (by simp [hm])]
        rw [List.filter_filter]
        apply List.filter_congr
        intro x hx
        by_cases hxm : x ∈ acc.map Prod.fst
        · simp [hxm]
        · have hxb : x ≠ p.block := fun h => hxm (h ▸ hm)
          simp [hxm, hxb]
      · rw [if_neg hm]
        simp only [List.map_cons, firstSeen, List.filter_cons]
        rw [if_pos (by simp [hm])]
        rw [List.append_assoc]
        congr 1
        show [p.block] ++ _ = _
        rw [List.singleton_append]
        congr 1
        rw [List.filter_filter]
        apply List.filter_congr
        intro x hx
        by_cases hxb : x = p.block
        · simp [hxb, hm]
        · by_cases hxm : x ∈ acc.map Prod.fst
          · simp [hxm, hxb]
          · simp [hxm, hxb]

theorem lookupB_blocksGo (ps : List (String × Parameter)) (a : Nat)
    (acc : List (ℤ × List Nat)) (b : ℤ) :
    lookupB (blocksGo ps a acc) b =
      if b ∈ acc.map Prod.fst ∨ b ∈ ps.map (fun e => e.2.block)
      then some ((lookupB acc b).getD [] ++ tagIdxs ps a b)
      else none := by
  induction ps generalizing a acc with
  | nil =>
      rw [blocksGo]
      by_cases hm : b ∈ acc.map Prod.fst
      · rcases hlk : lookupB acc b with _ | l
        · exact absurd ((lookupB_eq_none_iff acc b).mp hlk) (by simp [hm])
        · simp [hm, hlk, tagIdxs]
      · simp [hm, (lookupB_eq_none_iff acc b).mpr hm]
  | cons hd rest ih =>
      obtain ⟨k, p⟩ := hd
      rw [blocksGo, ih]
      by_cases hbp : p.block = b
      · subst hbp
        have hmem : p.block ∈ (insertBlock acc p.block (List.range' a p.size)).map Prod.fst := by
          rw [keys_insertBlock]
          by_cases hm : p.block ∈ acc.map Prod.fst
          · rwa [if_pos hm]
          · rw [if_neg hm]; simp
        rw [if_pos (Or.inl hmem), if_pos (Or.inr (by simp))]
        rw [lookupB_insertBlock_self]
        simp [tagIdxs]
      · have hbp' : ¬ b = p.block := fun h => hbp h.symm
        have hkeys : (b ∈ (insertBlock acc p.block (List.range' a p.size)).map Prod.fst)
            ↔ b ∈ acc.map Prod.fst := by
          rw [keys_insertBlock]
          by_cases hm : p.block ∈ acc.map Prod.fst
          · rw [if_pos hm]
          · rw [if_neg hm]
            simp [hbp']
        have htags : (b ∈ ((k, p) :: rest).map (fun e => e.2.block))
            ↔ b ∈ rest.map (fun e => e.2.block) := by
          simp [hbp']
        rw [lookupB_insertBlock_ne acc p.block b _ hbp']
        have htag : tagIdxs ((k, p) :: rest) a b = tagIdxs rest (a + p.size) b := by
          rw [tagIdxs, if_neg hbp, List.nil_append]
        by_cases hc : b ∈ acc.map Prod.fst ∨ b ∈ rest.map (fun e => e.2.block)
        · rw [if_pos (by rw [hkeys]; exact hc), if_pos (by rw [htags]; tauto), htag]
        · rw [if_neg (by rw [hkeys]; exact hc), if_neg (by rw [htags]; tauto)]

theorem mem_firstSeen (l : List ℤ) (a : ℤ) : a ∈ firstSeen l ↔ a ∈ l := by
  induction l with
  | nil => simp [firstSeen]
  | cons b t ih =>
      rw [firstSeen]
      by_cases hab : a = b
      · simp [hab]
      · simp only [List.mem_cons, List.mem_filter]
        constructor
        · rintro (h | ⟨h, -⟩)
          · exact Or.inl h
          · exact Or.inr (ih.mp h)
        · rintro (h | h)
          · exact Or.inl h
          · exact Or.inr ⟨ih.mpr h, by simp [hab]⟩

theorem nodup_firstSeen (l : List ℤ) : (firstSeen l).Nodup := by
  induction l with
  | nil => simp [firstSeen]
  | cons b t ih =>
      rw [firstSeen]
      refine List.Nodup.cons ?_ (List.Nodup.filter _ ih)
      intro hmem
      have := List.of_mem_filter hmem
      simp at this

theorem map_snd_eq_map_lookupB (al : List (ℤ × List Nat))
    (h : (al.map Prod.fst).Nodup) :
    al.map Prod.snd = (al.map Prod.fst).map (fun b => (lookupB al b).getD []) := by
  induction al with
  | nil => simp
  | cons hd t ih =>
      obtain ⟨b, l⟩ := hd
      simp only [List.map_cons] at h ⊢
      have hbt : b ∉ t.map Prod.fst := (List.nodup_cons.mp h).1
      rw [lookupB, if_pos rfl]
      simp only [Option.getD_some]
      congr 1
      rw [ih (List.nodup_cons.mp h).2]
      apply List.map_congr_left
      intro x hx
      have hbx : ¬ b = x := fun hbx => hbt (by rw [hbx]; exact hx)
      rw [lookupB, if_neg hbx]

theorem getD_set_ne (l : List (List ℚ)) (i j : Nat) (v d : List ℚ)
    (h : i ≠ j) : (l.set i v).getD j d = l.getD j d := by
  simp [List.getD, List.getElem?_set_ne h]

theorem copyLeavesH_store (ps : List (String × ParamH)) (s : Store) :
    ∃ ext, (copyLeavesH s ps).1 = s ++ ext := by
  induction ps generalizing s with
  | nil => exact ⟨[], by simp [copyLeavesH]⟩
  | cons hd rest ih =>
      obtain ⟨k, p⟩ := hd
      rw [copyLeavesH]
      obtain ⟨ext, hext⟩ := ih (s ++ [s.getD p.ref []])
      exact ⟨[s.getD p.ref []] ++ ext, by rw [hext, List.append_assoc]⟩

theorem copyLeavesH_refs (ps : List (String × ParamH)) (s : Store) :
    ∀ e ∈ (copyLeavesH s ps).2, s.length ≤ e.2.ref := by
  induction ps generalizing s with
  | nil => simp [copyLeavesH]
  | cons hd rest ih =>
      obtain ⟨k, p⟩ := hd
      rw [copyLeavesH]
      intro e he
      simp only [List.mem_cons] at he
      rcases he with he | he
      · rw [he]
      · have := ih (s ++ [s.getD p.ref []]) e he
        simp only [List.length_append, List.length_singleton] at this
        omega

theorem setValueH_preserve (s : Store) (p : ParamH) (theta : List ℚ) (t : Bool)
    (N : Nat) (hp : N ≤ p.ref) :
    ∀ r < N, ((ParamH.set_value s p theta t).2).getD r [] = s.getD r [] := by
  intro r hr
  rw [ParamH.set_value]
  split <;> split
  · rfl
  · exact getD_set_ne s p.ref r _ [] (by omega)
  · rfl
  · exact getD_set_ne s p.ref r _ [] (by omega)

theorem setLeavesH_preserve (ps : List (String × ParamH)) (s : Store)
    (theta : List ℚ) (t : Bool) (N : Nat) (h : ∀ e ∈ ps, N ≤ e.2.ref) :
    ∀ r < N, ((setLeavesH s ps theta t).2).getD r [] = s.getD r [] := by
  induction ps generalizing s theta with
  | nil => intro r hr; rfl
  | cons hd rest ih =>
      obtain ⟨k, p⟩ := hd
      intro r hr
      have hp : N ≤ p.ref := h (k, p) (List.mem_cons_self _ _)
      have hrest : ∀ e ∈ rest, N ≤ e.2.ref :=
        fun e he => h e (List.mem_cons_of_mem _ he)
      rcases hsv : ParamH.set_value s p (theta.take (s.getD p.ref []).length) t
        with ⟨e1, s1⟩
      have hs1 := setValueH_preserve s p (theta.take (s.getD p.ref []).length) t N hp
      rw [hsv] at hs1
      rw [setLeavesH, hsv]
      match e1 with
      | some e => exact hs1 r hr
      | none =>
          rw [ih s1 (theta.drop (s.getD p.ref []).length) hrest r hr, hs1 r hr]

/-- A nested registration that raises does so on a duplicate name, and
splits the child's entries at the offending one: the earlier entries are
already in the dictionary under their prefixed names, and the prefixed name
of the offending entry collides with the dictionary built so far. -/
theorem registerList_fail (entries : List (String × Parameter))
    (c : Parameters) (name : Option String) (e : Err) (c' : Parameters)
    (h : registerList c name entries = (some e, c')) :
    e = Err.duplicateName ∧
    ∃ pre x post,
      entries = pre ++ x :: post ∧
      c'.params = c.params ++ pre.map (fun en => (prefixName name en.1, en.2)) ∧
      c'.params.any (fun en => en.1 = prefixName name x.1) = true := by
  induction entries generalizing c with
  | nil => simp [registerList] at h
  | cons hd rest ih =>
      obtain ⟨n, p⟩ := hd
      rw [registerList] at h
      rcases hreg : c.registerParam (prefixName name n) p with ⟨e1, c1⟩
      rw [hreg] at h
      match e1 with
      | some e0 =>
          rw [Parameters.registerParam] at hreg
          split at hreg
          · rename_i hdup
            simp only [Prod.mk.injEq, Option.some.injEq] at hreg h
            obtain ⟨he0, hc1⟩ := hreg
            obtain ⟨he, hc'⟩ := h
            refine ⟨by rw [← he, ← he0], [], (n, p), rest, by simp, ?_, ?_⟩
            · rw [← hc', ← hc1]
              simp
            · rw [← hc', ← hc1]
              exact hdup
          · simp at hreg
      | none =>
          rw [Parameters.registerParam] at hreg
          split at hreg
          · simp at hreg
          · simp only [Prod.mk.injEq] at hreg
            obtain ⟨-, hc1⟩ := hreg
            obtain ⟨he, pre, x, post, hre, hc'p, hany⟩ := ih c1 h
            refine ⟨he, (n, p) :: pre, x, post, by rw [hre]; rfl, ?_, hany⟩
            rw [hc'p, ← hc1]
            simp

/-!
Theorems settling the claims.
-/

/-- C8: for every parameter whose value lies inside its bounds,
`set_value(get_value())` in natural space succeeds and leaves the value
unchanged component-for-component. -/
theorem C8_set_get_roundtrip (p : Parameter) (h : ¬ Outbounds p.bounds p.value) :
    p.set_value (p.get_value false) false = (none, p) := by
  simp [Parameter.get_value, Parameter.set_value, h]

/-- Witness for C8 at the concrete leaf `pFive`. -/
theorem C8_set_get_roundtrip_witness :
    ¬ Outbounds pFive.bounds pFive.value ∧
      pFive.set_value (pFive.get_value false) false = (none, pFive) :=
  ⟨by decide, C8_set_get_roundtrip pFive (by decide)⟩

/-- C10: constructing a `Parameter` whose initial value has a component
strictly outside the domain box raises a domain-violation error (construction
routes through `set_value`, which raises rather than clipping, despite the
constructor's comment). -/
theorem C10_init_raises (v : List ℚ) (d : Domain) (pr : Option Prior) (blk : ℤ)
    (h : Outbounds [d.bounds] v) :
    Parameter.init v d pr blk = .error Err.domainViolation := by
  simp [Parameter.init, Parameter.set_value, h]

/-- Witness for C10: the value `[2]` lies outside the unit-box domain and the
constructor raises. -/
theorem C10_init_raises_witness :
    Outbounds [dom01.bounds] [2] ∧
      Parameter.init [2] dom01 none 0 = .error Err.domainViolation :=
  ⟨by decide, C10_init_raises [2] dom01 none 0 (by decide)⟩

/-- C3: every component of `value` lies within the effective `bounds` (the
full invariant `Parameter.Inv`) after a successful construction, after every
successful `set_value` — natural or transformed — and after every successful
`set_prior`, including the clipping case. -/
theorem C3_value_in_bounds :
    (∀ (v : List ℚ) (d : Domain) (pr : Option Prior) (blk : ℤ) (p : Parameter),
        Parameter.init v d pr blk = .ok p → p.Inv) ∧
    (∀ (p : Parameter) (theta : List ℚ) (t : Bool) (p' : Parameter),
        p.Inv → theta.length = p.value.length →
        p.set_value theta t = (none, p') → p'.Inv) ∧
    (∀ (p : Parameter) (pr : Option Prior) (p' : Parameter) (w : Bool),
        p.Inv → PriorOk p pr → p.set_prior pr = (none, p', w) → p'.Inv) := by
  refine ⟨?_, ?_, ?_⟩
  · -- construction
    intro v d pr blk p h
    by_cases ho : Outbounds [d.bounds] v
    · simp [Parameter.init, Parameter.set_value, ho] at h
    · simp [Parameter.init, Parameter.set_value, ho] at h
      refine ⟨?_, ?_, Or.inl ?_⟩ <;> simp [← h, ho]
  · -- set_value
    intro p theta t p' hInv hlen h
    set theta' := if t then theta.map p.domain.transform.get_inverse else theta with ht
    have hlen' : theta'.length = p.value.length := by
      rw [ht]; cases t <;> simpa
    by_cases ho : Outbounds p.bounds theta'
    · simp [Parameter.set_value, ← ht, ho] at h
    · simp [Parameter.set_value, ← ht, ho] at h
      refine ⟨?_, ?_, ?_⟩
      · simpa [← h] using ho
      · simpa [← h] using hInv.2.1
      · rw [← h]
        simpa [hlen'] using hInv.2.2
  · -- set_prior
    intro p pr p' w hInv hok h
    match pr with
    | none =>
        simp only [Parameter.set_prior, Prod.mk.injEq] at h
        obtain ⟨hp, -⟩ := h.2
        subst hp
        refine ⟨?_, ?_, ?_⟩
        · rw [not_outbounds_iff]
          intro i hi
          rw [boundsAt_singleton]
          have hi' : i < p.value.length := hi
          have h1 := (not_outbounds_iff _ _).mp hInv.1 i hi'
          have hmem : boundsAt p.bounds i ∈ p.bounds := by
            apply boundsAt_mem
            rcases hInv.2.2 with hc | hc
            · exact Or.inl hc
            · exact Or.inr (by rw [hc]; exact hi')
          have h2 := hInv.2.1 _ hmem
          exact ⟨le_trans h2.1 h1.1, le_trans h1.2 h2.2⟩
        · dsimp only
          intro b hb
          simp only [List.mem_singleton] at hb
          simp [hb]
        · exact Or.inl rfl
    | some pr =>
        rw [Parameter.set_prior] at h
        by_cases hmis : Outbounds (tiledDomain p.domain pr.bounds.length) (pr.bounds.map Prod.fst) ∨
            Outbounds (tiledDomain p.domain pr.bounds.length) (pr.bounds.map Prod.snd)
        · simp only [if_pos hmis] at h
          exact absurd (congrArg Prod.fst h) (by simp)
        · simp only [if_neg hmis, Prod.mk.injEq] at h
          obtain ⟨hp, -⟩ := h.2
          push_neg at hmis
          have hrows := prior_rows_in_domain p.domain pr.bounds hmis.1 hmis.2
          have hokr := hok
          unfold PriorOk at hokr
          set nb := pr.bounds.map
            (fun b => (max b.1 p.domain.bounds.1, min b.2 p.domain.bounds.2)) with hnb
          have hlen : (clipList p.value nb).length = p.value.length := clipList_length _ _
          refine ⟨?_, ?_, ?_⟩
          · rw [← hp]
            rw [not_outbounds_iff]
            intro i hi
            rw [hlen] at hi
            have hdisj : i < pr.bounds.length ∨ pr.bounds.length = 1 := by
              rcases hokr.2 with hc | hc
              · exact Or.inr hc
              · exact Or.inl (by omega)
            have hba : boundsAt nb i =
                (max (boundsAt pr.bounds i).1 p.domain.bounds.1,
                 min (boundsAt pr.bounds i).2 p.domain.bounds.2) := by
              rw [hnb]
              exact boundsAt_map _ pr.bounds i hdisj
            have hbmem : boundsAt pr.bounds i ∈ pr.bounds := by
              apply boundsAt_mem
              rcases hdisj with hc | hc
              · exact Or.inr hc
              · exact Or.inl hc
            have hlohi : (boundsAt nb i).1 ≤ (boundsAt nb i).2 := by
              rw [hba]
              have hr := hrows _ hbmem
              have hbb := hokr.1 _ hbmem
              simp only [max_le_iff, le_min_iff]
              exact ⟨⟨hbb, hr.2.1⟩, hr.1.2, le_trans hr.1.1 hr.1.2⟩
            rw [clipList_getD _ _ _ hi]
            constructor
            · exact le_min (le_max_right _ _) hlohi
            · exact min_le_right _ _
          · rw [← hp]
            intro b hb
            rw [hnb] at hb
            simp only [List.mem_map] at hb
            obtain ⟨b', -, hb'⟩ := hb
            rw [← hb']
            exact ⟨le_max_right _ _, min_le_right _ _⟩
          · rw [← hp]
            simp only [hnb, List.length_map, hlen]
            rcases hokr.2 with hc | hc
            · exact Or.inl hc
            · exact Or.inr (by simpa [clipList_length] using hc)

/-- Witness for C3: a concrete construction, a concrete natural-space
`set_value`, and a concrete clipping `set_prior`, each preserving the
invariant. -/
theorem C3_value_in_bounds_witness :
    (Parameter.init [5] dom010 none 0 = .ok pFive ∧ pFive.Inv) ∧
    (pFive.Inv ∧ ([(7 : ℚ)] : List ℚ).length = pFive.value.length ∧
      pFive.set_value [7] false = (none, leaf [7] dom010 0) ∧
      (leaf [7] dom010 0).Inv) ∧
    (PriorOk pFive (some prClip) ∧
      pFive.set_prior (some prClip) = (none, pClipped, true) ∧ pClipped.Inv) := by
  refine ⟨⟨rfl, C3_value_in_bounds.1 [5] dom010 none 0 pFive rfl⟩,
          ⟨by decide, rfl, rfl,
           C3_value_in_bounds.2.1 pFive [7] false (leaf [7] dom010 0)
             (by decide) rfl rfl⟩,
          ⟨by decide, rfl,
           C3_value_in_bounds.2.2 pFive (some prClip) pClipped true
             (by decide) (by decide) rfl⟩⟩

/-- C4: a successful `set_prior` with an overlapping prior sets `bounds` to
the component-wise intersection `[max(domain.lo, prior.lo),
min(domain.hi, prior.hi)]`, records the prior, warns (non-fatally) exactly
when the current value has a component outside the intersection and clips the
value into it, and leaves the value unchanged otherwise. -/
theorem C4_set_prior_clips (p : Parameter) (pr : Prior) (p' : Parameter)
    (w : Bool) (_hov : supportOverlapsDomain p.domain pr.bounds)
    (h : p.set_prior (some pr) = (none, p', w)) :
    p'.bounds = intersection p.domain pr.bounds ∧
    p'.prior = some pr ∧
    (w = true ↔ Outbounds p'.bounds p.value) ∧
    p'.value = clipList p.value p'.bounds ∧
    ((pr.bounds.length = 1 ∨ pr.bounds.length = p.value.length) →
      ¬ Outbounds p'.bounds p.value → p'.value = p.value) := by
  rw [Parameter.set_prior] at h
  by_cases hmis : Outbounds (tiledDomain p.domain pr.bounds.length) (pr.bounds.map Prod.fst) ∨
      Outbounds (tiledDomain p.domain pr.bounds.length) (pr.bounds.map Prod.snd)
  · simp only [if_pos hmis] at h
    exact absurd (congrArg Prod.fst h) (by simp)
  · simp only [if_neg hmis, Prod.mk.injEq] at h
    obtain ⟨-, hp, hw⟩ := h
    subst hp
    subst hw
    set nb := pr.bounds.map
      (fun b => (max b.1 p.domain.bounds.1, min b.2 p.domain.bounds.2)) with hnb
    have hbeq : nb = intersection p.domain pr.bounds := by
      rw [hnb]
      unfold intersection
      exact List.map_congr_left (fun b _ => by rw [max_comm, min_comm])
    refine ⟨hbeq, rfl, by simp, rfl, ?_⟩
    intro hsh hno
    show clipList p.value nb = p.value
    rw [not_outbounds_iff] at hno
    apply List.ext_getElem (by simp [clipList_length])
    intro i h1 h2
    have hi : i < p.value.length := h2
    have hcl := clipList_getD p.value nb i hi
    have hb := hno i hi
    rw [← List.getD_eq_getElem (clipList p.value nb) 0 h1,
        ← List.getD_eq_getElem p.value 0 h2, hcl,
        max_eq_left hb.1, min_eq_left hb.2]

/-- Witness for C4: attaching the prior with support `[6, 8]` to the leaf at
`5` narrows the bounds, warns, and clips the value to `6`. -/
theorem C4_set_prior_clips_witness :
    supportOverlapsDomain pFive.domain prClip.bounds ∧
    pFive.set_prior (some prClip) = (none, pClipped, true) ∧
    (pClipped.bounds = intersection pFive.domain prClip.bounds ∧
     pClipped.prior = some prClip ∧
     (true = true ↔ Outbounds pClipped.bounds pFive.value) ∧
     pClipped.value = clipList pFive.value pClipped.bounds ∧
     ((prClip.bounds.length = 1 ∨ prClip.bounds.length = pFive.value.length) →
       ¬ Outbounds pClipped.bounds pFive.value → pClipped.value = pFive.value)) :=
  ⟨by decide, rfl, C4_set_prior_clips pFive prClip pClipped true (by decide) rfl⟩

/-- C2 counterexample: the prior support `[-1, 5]` overlaps the `[0, 10]`
domain (so the claim predicts no error), yet `set_prior` raises a
domain-mismatch error because the support is not contained in the domain
box. -/
theorem C2_counterexample :
    supportOverlapsDomain pFive.domain prOverlap.bounds ∧
      (pFive.set_prior (some prOverlap)).1 = some Err.domainMismatch := by
  exact ⟨by decide, by decide⟩

/-- C2 amended: for a well-formed support, `set_prior` fails with a
domain-mismatch error exactly when the support is not contained in the domain
box — some row has its lower endpoint below the domain's lower bound or its
upper endpoint above the domain's upper bound.  Mere overlap is not enough to
avoid the error. -/
theorem C2_domain_mismatch_iff (p : Parameter) (pr : Prior)
    (hwf : ∀ b ∈ pr.bounds, b.1 ≤ b.2) :
    (p.set_prior (some pr)).1 = some Err.domainMismatch ↔
      ∃ b ∈ pr.bounds, b.1 < p.domain.bounds.1 ∨ p.domain.bounds.2 < b.2 := by
  rw [Parameter.set_prior]
  by_cases hmis : Outbounds (tiledDomain p.domain pr.bounds.length) (pr.bounds.map Prod.fst) ∨
      Outbounds (tiledDomain p.domain pr.bounds.length) (pr.bounds.map Prod.snd)
  · simp only [if_pos hmis, true_iff]
    rcases hmis with hA | hB
    · obtain ⟨j, hjr, hcond⟩ := hA
      have hj : j < pr.bounds.length := by simpa using List.mem_range.mp hjr
      rw [boundsAt_tiledDomain _ _ _ (Or.inl hj), getD_map_fst pr.bounds j hj] at hcond
      refine ⟨pr.bounds.get ⟨j, hj⟩, List.get_mem pr.bounds j hj, ?_⟩
      rcases hcond with hc | hc
      · exact Or.inl hc
      · exact Or.inr (lt_of_lt_of_le hc (hwf _ (List.get_mem pr.bounds j hj)))
    · obtain ⟨j, hjr, hcond⟩ := hB
      have hj : j < pr.bounds.length := by simpa using List.mem_range.mp hjr
      rw [boundsAt_tiledDomain _ _ _ (Or.inl hj), getD_map_snd pr.bounds j hj] at hcond
      refine ⟨pr.bounds.get ⟨j, hj⟩, List.get_mem pr.bounds j hj, ?_⟩
      rcases hcond with hc | hc
      · exact Or.inl (lt_of_le_of_lt (hwf _ (List.get_mem pr.bounds j hj)) hc)
      · exact Or.inr hc
  · simp only [if_neg hmis]
    push_neg at hmis
    have hrows := prior_rows_in_domain p.domain pr.bounds hmis.1 hmis.2
    constructor
    · intro h
      exact absurd h (by simp)
    · rintro ⟨b, hb, hc | hc⟩
      · exact absurd (hrows b hb).1.1 (not_le.mpr hc)
      · exact absurd (hrows b hb).2.2 (not_le.mpr hc)

/-- Witness for the amended C2 at the leaf over `[0, 10]` and the support
`[-1, 5]`. -/
theorem C2_domain_mismatch_iff_witness :
    (∀ b ∈ prOverlap.bounds, b.1 ≤ b.2) ∧
      ((pFive.set_prior (some prOverlap)).1 = some Err.domainMismatch ↔
        ∃ b ∈ prOverlap.bounds,
          b.1 < pFive.domain.bounds.1 ∨ pFive.domain.bounds.2 < b.2) :=
  ⟨by decide, C2_domain_mismatch_iff pFive prOverlap (by decide)⟩

/-- C6 counterexample: a container with zero leaves, for which the claim
predicts an ambiguous-target error, but whose `set_prior` succeeds (the code
only rejects *more than one* leaf) and still invokes the mutation hook. -/
theorem C6_counterexample :
    cEmpty.params.length = 0 ∧
      (cEmpty.set_prior (some prInside)).1 = none ∧
      (cEmpty.set_prior (some prInside)).2.2 = [Event.hook] :=
  ⟨rfl, rfl, rfl⟩

/-- C6 amended: container `set_prior` fails with an ambiguous-target error
exactly when the container holds more than one leaf; with zero leaves it is a
no-op that still invokes the owner's mutation hook; with exactly one leaf it
delegates to that leaf — propagating the leaf's error without invoking the
hook, and invoking the hook after a successful delegation. -/
theorem C6_set_prior_single_leaf (c : Parameters) (pr : Option Prior) :
    (c.params.length > 1 → c.set_prior pr = (some Err.ambiguousTarget, c, [])) ∧
    (c.params = [] → c.set_prior pr = (none, c, [Event.hook])) ∧
    (∀ k p, c.params = [(k, p)] →
      (∀ e p' w, p.set_prior pr = (some e, p', w) →
        c.set_prior pr = (some e, c, [])) ∧
      (∀ p' w, p.set_prior pr = (none, p', w) →
        c.set_prior pr = (none, ⟨[(k, p')]⟩, [Event.hook]))) := by
  refine ⟨?_, ?_, ?_⟩
  · intro h1
    rw [Parameters.set_prior, if_pos h1]
  · intro hc
    rw [Parameters.set_prior, if_neg (by rw [hc]; simp)]
    split
    · rfl
    · rename_i k p rest heq
      rw [hc] at heq
      cases heq
  · intro k p hc
    constructor
    · intro e p' w hleaf
      rw [Parameters.set_prior, if_neg (by rw [hc]; simp)]
      split
      · rename_i heq
        rw [hc] at heq
        cases heq
      · rename_i k' p' rest heq
        rw [hc] at heq
        cases heq
        rw [hleaf]
    · intro p' w hleaf
      rw [Parameters.set_prior, if_neg (by rw [hc]; simp)]
      split
      · rename_i heq
        rw [hc] at heq
        cases heq
      · rename_i k' p'' rest heq
        rw [hc] at heq
        cases heq
        rw [hleaf]

/-- Witness for the amended C6: two leaves raise, zero leaves no-op and hook,
one leaf delegates (both the failing and the succeeding delegation). -/
theorem C6_set_prior_single_leaf_witness :
    cTwo.set_prior (some prInside) = (some Err.ambiguousTarget, cTwo, []) ∧
    cEmpty.set_prior (some prInside) = (none, cEmpty, [Event.hook]) ∧
    cOne.set_prior (some prInside) = (none, ⟨[("x", pWithPrior)]⟩, [Event.hook]) ∧
    cOne.set_prior (some prOverlap) = (some Err.domainMismatch, cOne, []) :=
  ⟨(C6_set_prior_single_leaf cTwo (some prInside)).1 (by decide),
   (C6_set_prior_single_leaf cEmpty (some prInside)).2.1 rfl,
   ((C6_set_prior_single_leaf cOne (some prInside)).2.2 "x" pFive rfl).2
     pWithPrior false rfl,
   ((C6_set_prior_single_leaf cOne (some prOverlap)).2.2 "x" pFive rfl).1
     Err.domainMismatch pFive false rfl⟩

/-- C5: container `set_value` with a vector of the wrong length fails with a
shape-mismatch error before touching any leaf and without invoking the hook;
with the right length and all leaves succeeding, it partitions `theta` into
consecutive slices in registration order, assigns slice `i` to leaf `i`
through the leaf's `set_value`, and invokes the owner's mutation hook exactly
once, after all of the leaf writes. -/
theorem C5_container_set_value (c : Parameters) (theta : List ℚ) (t : Bool) :
    (theta.length ≠ c.size →
      c.set_value theta t = (some Err.shapeMismatch, c, [])) ∧
    (∀ c' evs, c.set_value theta t = (none, c', evs) →
      theta.length = c.size ∧
      List.Forall₂ (leafSet t) (c.params.zip (slices c.params theta)) c'.params ∧
      evs = ((c.params.zip (slices c.params theta)).map
               (fun e => Event.setLeaf e.1.1 e.2)) ++ [Event.hook]) := by
  constructor
  · intro hne
    rw [Parameters.set_value, if_neg hne]
  · intro c' evs h
    by_cases hlen : theta.length = c.size
    · rw [Parameters.set_value, if_pos hlen] at h
      rcases hgo : setLeavesGo c.params theta t with ⟨e1, ps1, evs1⟩
      rw [hgo] at h
      match e1 with
      | some e => simp at h
      | none =>
          simp only [Prod.mk.injEq] at h
          obtain ⟨-, hc', hevs⟩ := h
          obtain ⟨hf, he⟩ := setLeavesGo_ok c.params theta t ps1 evs1 hgo
          refine ⟨hlen, ?_, ?_⟩
          · rw [← hc']
            exact hf
          · rw [← hevs, he]
    · rw [Parameters.set_value, if_neg hlen] at h
      simp at h

/-- Witness for C5: a wrong-length vector fails on the two-leaf container
untouched; `[1, 1]` succeeds, slicing one component to each leaf and firing
the hook once at the end. -/
theorem C5_container_set_value_witness :
    (([1] : List ℚ).length ≠ cTwo.size ∧
      cTwo.set_value [1] false = (some Err.shapeMismatch, cTwo, [])) ∧
    (cTwo.set_value [1, 1] false =
        (none, cTwoOnes,
          [Event.setLeaf "a" [1], Event.setLeaf "b" [1], Event.hook]) ∧
      ([1, 1] : List ℚ).length = cTwo.size ∧
      List.Forall₂ (leafSet false)
        (cTwo.params.zip (slices cTwo.params [1, 1])) cTwoOnes.params ∧
      ([Event.setLeaf "a" [1], Event.setLeaf "b" [1], Event.hook] : List Event) =
        ((cTwo.params.zip (slices cTwo.params [1, 1])).map
          (fun e => Event.setLeaf e.1.1 e.2)) ++ [Event.hook]) :=
  ⟨⟨by decide, (C5_container_set_value cTwo [1] false).1 (by decide)⟩,
   ⟨rfl, (C5_container_set_value cTwo [1, 1] false).2 cTwoOnes
      [Event.setLeaf "a" [1], Event.setLeaf "b" [1], Event.hook] rfl⟩⟩

/-- C1 counterexample, in two parts.  First, container `set_value` on a
two-leaf container with `[1, 5]` fails (the second slice violates the second
leaf's bounds), yet the first leaf's value has already been overwritten.
Second, registering a nested container under `"s"` fails with a duplicate
name at its second entry (`"s.a"` already exists), yet its first entry
`"s.x"` has already been added to the name map.  In both cases a failing
operation leaves the container's visible state different from what it was
before the call. -/
theorem C1_counterexample :
    ((cTwo.set_value [1, 5] false).1 = some Err.domainViolation ∧
      cTwo.params.map (fun ev => ev.2.value) = [[0], [0]] ∧
      (cTwo.set_value [1, 5] false).2.1.params.map (fun ev => ev.2.value) =
        [[1], [0]]) ∧
    ((cDotted.registerContainer (some "s") cChild).1 = some Err.duplicateName ∧
      cDotted.params.map Prod.fst = ["s.a"] ∧
      (cDotted.registerContainer (some "s") cChild).2.params.map Prod.fst =
        ["s.a", "s.x"]) := by
  exact ⟨⟨by decide, by decide, by decide⟩, ⟨by decide, by decide, by decide⟩⟩

/-- C1 amended: every failing operation leaves the container's visible state
exactly as before the call — a shape-mismatch in container `set_value` is
raised before any leaf is touched and without the hook, a failing
container-level `set_prior` changes nothing and fires no hook, a failing
leaf-level `set_value` or `set_prior` writes nothing, a `select` with an
unknown or duplicate key never mutates the source container, and a duplicate
single-leaf registration inserts nothing — with two exceptions: a container
`set_value` of the right length that fails with a domain violation at leaf
`i` leaves the leaves before `i` already updated (only the failing leaf and
the ones after it are unchanged), and registering a nested container that
hits a duplicate flattened name partway leaves the earlier entries already
registered under their prefixed names. -/
theorem C1_failure_atomicity :
    (∀ (c : Parameters) (theta : List ℚ) (t : Bool) (e : Err)
        (c' : Parameters) (evs : List Event),
        c.set_value theta t = (some e, c', evs) →
        (theta.length ≠ c.size ∧ e = Err.shapeMismatch ∧ c' = c ∧ evs = []) ∨
        (theta.length = c.size ∧ ∃ pre x post pre',
          c.params = pre ++ x :: post ∧
          c'.params = pre' ++ x :: post ∧
          List.Forall₂ (leafSet t) (pre.zip (slices pre theta)) pre' ∧
          (x.2.set_value ((theta.drop (sizeSum pre)).take x.2.size) t).1 = some e)) ∧
    (∀ (c : Parameters) (pr : Option Prior) (e : Err) (c' : Parameters)
        (evs : List Event),
        c.set_prior pr = (some e, c', evs) → c' = c ∧ evs = []) ∧
    (∀ (p : Parameter) (theta : List ℚ) (t : Bool) (e : Err) (p' : Parameter),
        p.set_value theta t = (some e, p') → p' = p) ∧
    (∀ (p : Parameter) (pr : Option Prior) (e : Err) (p' : Parameter) (w : Bool),
        p.set_prior pr = (some e, p', w) → p' = p ∧ w = false) ∧
    (∀ (c : Parameters) (n : String) (p : Parameter) (e : Err) (c' : Parameters),
        c.registerParam n p = (some e, c') → c' = c) ∧
    (∀ (c : Parameters) (keys : List String) (e : Err) (c' : Parameters)
        (sel : List (String × Parameter)),
        c.getitem keys = (some e, c', sel) → c' = c) ∧
    (∀ (c : Parameters) (name : Option String) (child : Parameters) (e : Err)
        (c' : Parameters),
        c.registerContainer name child = (some e, c') →
        e = Err.duplicateName ∧
        ∃ pre x post,
          child.params = pre ++ x :: post ∧
          c'.params = c.params ++ pre.map (fun en => (prefixName name en.1, en.2)) ∧
          c'.params.any (fun en => en.1 = prefixName name x.1) = true) := by
  refine ⟨?_, ?_, ?_, ?_, ?_, ?_, ?_⟩
  · intro c theta t e c' evs h
    by_cases hlen : theta.length = c.size
    · rw [Parameters.set_value, if_pos hlen] at h
      rcases hgo : setLeavesGo c.params theta t with ⟨e1, ps1, evs1⟩
      rw [hgo] at h
      match e1 with
      | none => simp at h
      | some e0 =>
          simp only [Prod.mk.injEq, Option.some.injEq] at h
          obtain ⟨he, hc', -⟩ := h
          subst he
          obtain ⟨pre, x, post, pre', h1, h2, h3, h4, -⟩ :=
            setLeavesGo_fail c.params theta t e0 ps1 evs1 hgo
          exact Or.inr ⟨hlen, pre, x, post, pre', h1, by rw [← hc']; exact h2, h3, h4⟩
    · rw [Parameters.set_value, if_neg hlen] at h
      simp only [Prod.mk.injEq, Option.some.injEq] at h
      exact Or.inl ⟨hlen, h.1.symm, h.2.1.symm, h.2.2.symm⟩
  · intro c pr e c' evs h
    rw [Parameters.set_prior] at h
    by_cases h1 : c.params.length > 1
    · rw [if_pos h1] at h
      simp only [Prod.mk.injEq] at h
      exact ⟨h.2.1.symm, h.2.2.symm⟩
    · rw [if_neg h1] at h
      split at h
      · simp at h
      · rename_i k p rest heq
        rcases hsp : p.set_prior pr with ⟨e1, p1, w1⟩
        rw [hsp] at h
        match e1 with
        | none => simp at h
        | some e0 =>
            simp only [Prod.mk.injEq] at h
            exact ⟨h.2.1.symm, h.2.2.symm⟩
  · intro p theta t e p' h
    rw [Parameter.set_value] at h
    by_cases ho : Outbounds p.bounds
        (if t then theta.map p.domain.transform.get_inverse else theta)
    · simp only [if_pos ho, Prod.mk.injEq] at h
      exact h.2.symm
    · simp only [if_neg ho, Prod.mk.injEq] at h
      simp at h
  · intro p pr e p' w h
    match pr with
    | none => simp [Parameter.set_prior] at h
    | some pr =>
        rw [Parameter.set_prior] at h
        by_cases hmis : Outbounds (tiledDomain p.domain pr.bounds.length)
            (pr.bounds.map Prod.fst) ∨
            Outbounds (tiledDomain p.domain pr.bounds.length)
              (pr.bounds.map Prod.snd)
        · simp only [if_pos hmis, Prod.mk.injEq] at h
          exact ⟨h.2.1.symm, h.2.2.symm⟩
        · simp only [if_neg hmis] at h
          exact absurd (congrArg Prod.fst h) (by simp)
  · intro c n p e c' h
    rw [Parameters.registerParam] at h
    by_cases hdup : c.params.any (fun ev => ev.1 = n)
    · simp only [if_pos hdup, Prod.mk.injEq] at h
      exact h.2.symm
    · simp only [if_neg hdup, Prod.mk.injEq] at h
      simp at h
  · intro c keys e c' sel h
    rw [Parameters.getitem] at h
    simp only [Prod.mk.injEq] at h
    exact h.2.1.symm
  · intro c name child e c' h
    exact registerList_fail child.params c name e c' h

/-- Witness for the amended C1: concrete failing calls of every kind — the
wrong-length and failing-leaf container `set_value`, the container
`set_prior`, the leaf `set_value` and `set_prior`, a duplicate single-leaf
registration, a `select` with an unknown and with a duplicate key, and a
nested registration hitting a duplicate flattened name partway. -/
theorem C1_failure_atomicity_witness :
    (([1] : List ℚ).length ≠ cTwo.size ∧
      (cTwo.set_value [1] false).2.1 = cTwo ∧
      (cTwo.set_value [1] false).2.2 = []) ∧
    (∃ pre x post pre',
      cTwo.params = pre ++ x :: post ∧
      (cTwo.set_value [1, 5] false).2.1.params = pre' ++ x :: post ∧
      List.Forall₂ (leafSet false) (pre.zip (slices pre [1, 5])) pre' ∧
      (x.2.set_value ((([1, 5] : List ℚ).drop (sizeSum pre)).take x.2.size)
          false).1 = some Err.domainViolation) ∧
    ((cOne.set_prior (some prOverlap)).2.1 = cOne ∧
      (cOne.set_prior (some prOverlap)).2.2 = []) ∧
    ((pFive.set_value [20] false).2 = pFive) ∧
    ((pFive.set_prior (some prOverlap)).2.1 = pFive) ∧
    ((cTwo.registerParam "a" pFive).2 = cTwo) ∧
    ((cTwo.getitem ["z"]).2.1 = cTwo) ∧
    ((cTwo.getitem ["a", "a"]).2.1 = cTwo) ∧
    (∃ pre x post,
      cChild.params = pre ++ x :: post ∧
      (cDotted.registerContainer (some "s") cChild).2.params =
        cDotted.params ++
          pre.map (fun en => (prefixName (some "s") en.1, en.2)) ∧
      (cDotted.registerContainer (some "s") cChild).2.params.any
        (fun en => en.1 = prefixName (some "s") x.1) = true) := by
  refine ⟨⟨by decide, ?_, ?_⟩, ?_, ⟨?_, ?_⟩, ?_, ?_, ?_, ?_, ?_, ?_⟩
  · rcases C1_failure_atomicity.1 cTwo [1] false Err.shapeMismatch
        (cTwo.set_value [1] false).2.1 (cTwo.set_value [1] false).2.2 rfl with
      ⟨-, -, hc, -⟩ | ⟨habs, -⟩
    · exact hc
    · exact absurd habs (by decide)
  · rcases C1_failure_atomicity.1 cTwo [1] false Err.shapeMismatch
        (cTwo.set_value [1] false).2.1 (cTwo.set_value [1] false).2.2 rfl with
      ⟨-, -, -, he⟩ | ⟨habs, -⟩
    · exact he
    · exact absurd habs (by decide)
  · rcases C1_failure_atomicity.1 cTwo [1, 5] false Err.domainViolation
        (cTwo.set_value [1, 5] false).2.1 (cTwo.set_value [1, 5] false).2.2 rfl with
      ⟨habs, -⟩ | ⟨-, hex⟩
    · exact absurd rfl habs
    · exact hex
  · exact (C1_failure_atomicity.2.1 cOne (some prOverlap) Err.domainMismatch
      cOne [] rfl).1
  · exact (C1_failure_atomicity.2.1 cOne (some prOverlap) Err.domainMismatch
      cOne [] rfl).2
  · exact C1_failure_atomicity.2.2.1 pFive [20] false Err.domainViolation pFive rfl
  · exact (C1_failure_atomicity.2.2.2.1 pFive (some prOverlap) Err.domainMismatch
      pFive false rfl).1
  · exact C1_failure_atomicity.2.2.2.2.1 cTwo "a" pFive Err.duplicateName cTwo rfl
  · exact C1_failure_atomicity.2.2.2.2.2.1 cTwo ["z"] Err.unknownKey
      (cTwo.getitem ["z"]).2.1 (cTwo.getitem ["z"]).2.2 rfl
  · exact C1_failure_atomicity.2.2.2.2.2.1 cTwo ["a", "a"] Err.duplicateName
      (cTwo.getitem ["a", "a"]).2.1 (cTwo.getitem ["a", "a"]).2.2 rfl
  · exact (C1_failure_atomicity.2.2.2.2.2.2 cDotted (some "s") cChild
      Err.duplicateName (cDotted.registerContainer (some "s") cChild).2 rfl).2

/-- C9 counterexample: for leaves of sizes `[2, 1, 3]` with block tags
`[0, 1, 0]` the code yields groups `[[0, 1, 3, 4, 5], [2]]` — not the
`[[0, 1, 5, 6, 7], [2]]` of the claim (indices `5, 6, 7` do not even exist in
a vector of total size `6`). -/
theorem C9_counterexample :
    cBlocks.params.map (fun e => e.2.size) = [2, 1, 3] ∧
    cBlocks.params.map (fun e => e.2.block) = [0, 1, 0] ∧
    cBlocks.blocks = [[0, 1, 3, 4, 5], [2]] ∧
    cBlocks.blocks ≠ [[0, 1, 5, 6, 7], [2]] := by
  exact ⟨by decide, by decide, by decide, by decide⟩

/-- C9 amended: `blocks` groups the flattened vector indices by block tag —
each leaf contributes the consecutive index range at its flattening-order
offset to its tag's group, and the groups appear in first-seen tag order; in
particular, for leaves of sizes `[2, 1, 3]` with tags `[0, 1, 0]` it yields
`{0: [0, 1, 3, 4, 5], 1: [2]}`. -/
theorem C9_blocks_grouping :
    (∀ c : Parameters,
      c.blocks = (firstSeen (c.params.map (fun e => e.2.block))).map
        (fun b => tagIdxs c.params 0 b)) ∧
    cBlocks.blocks = [[0, 1, 3, 4, 5], [2]] := by
  constructor
  · intro c
    rw [Parameters.blocks]
    have hkeys : (blocksGo c.params 0 []).map Prod.fst =
        firstSeen (c.params.map (fun e => e.2.block)) := by
      rw [keys_blocksGo]
      simp
    rw [map_snd_eq_map_lookupB _ (by rw [hkeys]; exact nodup_firstSeen _), hkeys]
    apply List.map_congr_left
    intro b hb
    have hbtags : b ∈ c.params.map (fun e => e.2.block) := (mem_firstSeen _ _).mp hb
    rw [lookupB_blocksGo, if_pos (Or.inr hbtags)]
    simp [lookupB]
  · decide

/-- C7: after `copy()` the copy's container back-reference is the copy
itself, every leaf of the copy points at a freshly allocated value array (no
array is shared with the original), the act of copying changes no original
array, mutating the copy through its container — even a partially failing
mutation — leaves every original array numerically identical to its pre-copy
state, and a successful mutation invokes the mutation hook on the copy, not
the original. -/
theorem C7_deepcopy_independent (s : Store) (o : ParameterizedH) (nid : Nat) :
    ((ParameterizedH.deepcopy s o nid).2.id = nid ∧
      (ParameterizedH.deepcopy s o nid).2.params.obj = nid) ∧
    (∀ e ∈ (ParameterizedH.deepcopy s o nid).2.params.params,
      s.length ≤ e.2.ref) ∧
    (∀ r, r < s.length →
      ((ParameterizedH.deepcopy s o nid).1).getD r [] = s.getD r []) ∧
    (∀ (theta : List ℚ) (t : Bool) (r : Nat), r < s.length →
      ((ParamsH.set_value (ParameterizedH.deepcopy s o nid).1
          (ParameterizedH.deepcopy s o nid).2.params theta t).2.1).getD r [] =
        s.getD r []) ∧
    (∀ (theta : List ℚ) (t : Bool) (s₂ : Store) (hooks : List Nat),
      ParamsH.set_value (ParameterizedH.deepcopy s o nid).1
          (ParameterizedH.deepcopy s o nid).2.params theta t = (none, s₂, hooks) →
      hooks = [nid]) := by
  obtain ⟨ext, hext⟩ := copyLeavesH_store o.params.params s
  have hrefs := copyLeavesH_refs o.params.params s
  have hpre : ∀ r, r < s.length →
      ((copyLeavesH s o.params.params).1).getD r [] = s.getD r [] := by
    intro r hr
    rw [hext]
    exact List.getD_append _ _ _ _ hr
  simp only [ParameterizedH.deepcopy, ParamsH.deepcopy]
  refine ⟨⟨trivial, trivial⟩, hrefs, hpre, ?_, ?_⟩
  · intro theta t r hr
    rw [ParamsH.set_value]
    split
    · rcases hgo : setLeavesH (copyLeavesH s o.params.params).1
          (copyLeavesH s o.params.params).2 theta t with ⟨e1, s1⟩
      have hp := setLeavesH_preserve (copyLeavesH s o.params.params).2
        (copyLeavesH s o.params.params).1 theta t s.length hrefs r hr
      rw [hgo] at hp
      cases e1 with
      | some e => exact hp.trans (hpre r hr)
      | none => exact hp.trans (hpre r hr)
    · exact hpre r hr
  · intro theta t s₂ hooks h
    rw [ParamsH.set_value] at h
    split at h
    · rcases hgo : setLeavesH (copyLeavesH s o.params.params).1
          (copyLeavesH s o.params.params).2 theta t with ⟨e1, s1⟩
      rw [hgo] at h
      cases e1 with
      | some e => simp at h
      | none =>
          simp only [Prod.mk.injEq] at h
          exact h.2.2.symm
    · simp at h

/-- Witness for C7 at the concrete two-array heap `s7`: the copy
back-references itself (id `7`), the original cell `0` is untouched by a
mutation of the copy, and the hook fires on the copy. -/
theorem C7_deepcopy_independent_witness :
    (ParameterizedH.deepcopy s7 o7 7).2.id = 7 ∧
    (ParameterizedH.deepcopy s7 o7 7).2.params.obj = 7 ∧
    ((0 : Nat) < s7.length ∧
      ((ParamsH.set_value (ParameterizedH.deepcopy s7 o7 7).1
          (ParameterizedH.deepcopy s7 o7 7).2.params [5, 6] false).2.1).getD 0 [] =
        s7.getD 0 []) ∧
    ((ParamsH.set_value (ParameterizedH.deepcopy s7 o7 7).1
        (ParameterizedH.deepcopy s7 o7 7).2.params [5, 6] false).2.2 = [7]) :=
  ⟨(C7_deepcopy_independent s7 o7 7).1.1,
   (C7_deepcopy_independent s7 o7 7).1.2,
   ⟨by decide,
    (C7_deepcopy_independent s7 o7 7).2.2.2.1 [5, 6] false 0 (by decide)⟩,
   (C7_deepcopy_independent s7 o7 7).2.2.2.2 [5, 6] false _ _ rfl⟩

end Reggie

